import Mathlib

/-!
Verification of the transcript-acquisition and chunked-summarization pipeline of the
youtube-summarizer repository.  Python strings are modelled as `List Char`; Python
floats used as caption start times are modelled as `Int`; machine calls (OpenAI,
YouTube transcript API, yt-dlp) are modelled by explicit oracles / environment records.
Whitespace is modelled as the ASCII whitespace characters recognised by Python's
`str.strip` / `str.split` / regex `\s` (the unicode extras are not modelled).
-/

/-- ASCII whitespace, as recognised by Python `str.strip`, `str.split` and regex `\s`. -/
def pyIsSpace (c : Char) : Bool :=
  c == ' ' || c == '\t' || c == '\n' || c == '\r' || c == '\x0b' || c == '\x0c'

/-- Sentence-ending characters of the regex `(?<=[.!?])\s+` used by both chunkers. -/
def isSentEnd (c : Char) : Bool :=
  c == '.' || c == '!' || c == '?'

/-- The punctuation set `'.!?…,:;'` of `_construct_transcript_text`. -/
def isPunct (c : Char) : Bool :=
  c == '.' || c == '!' || c == '?' || c == '…' || c == ',' || c == ':' || c == ';'

/-- Python `str.strip()` (ASCII whitespace). -/
def pyStrip (l : List Char) : List Char :=
  ((l.dropWhile pyIsSpace).reverse.dropWhile pyIsSpace).reverse

/-- Python `sep.join(parts)`. -/
def pyJoin (sep : List Char) : List (List Char) → List Char
  | [] => []
  | [x] => x
  | x :: y :: rest => x ++ sep ++ pyJoin sep (y :: rest)

/-- Worker for Python `str.split()` (no argument): maximal runs of non-whitespace.
`cur` holds the current word reversed. -/
def wordsAux : List Char → List Char → List (List Char)
  | [], cur => if cur = [] then [] else [cur.reverse]
  | c :: rest, cur =>
    if pyIsSpace c then
      if cur = [] then wordsAux rest [] else cur.reverse :: wordsAux rest []
    else wordsAux rest (c :: cur)

/-- Python `str.split()` with no argument. -/
def pyWords (l : List Char) : List (List Char) := wordsAux l []

/-- Worker for `re.split(r'(?<=[.!?])\s+', text)`: a separator is a maximal whitespace
run immediately preceded by `.`, `!` or `?`.  `cur` is the current sentence reversed,
`pe` records whether the previous character was a sentence end, `inSep` records that we
are inside a separator run (having already emitted the sentence before it). -/
def sentSplitAux : List Char → List Char → Bool → Bool → List (List Char)
  | [], cur, _, _ => [cur.reverse]
  | c :: rest, cur, pe, inSep =>
    if inSep then
      if pyIsSpace c then sentSplitAux rest [] false true
      else sentSplitAux rest [c] (isSentEnd c) false
    else if pe && pyIsSpace c then
      cur.reverse :: sentSplitAux rest [] false true
    else sentSplitAux rest (c :: cur) (isSentEnd c) false

/-- `re.split(r'(?<=[.!?])\s+', text)` as used by `chunk_text` (youtube_processor.py
line 383) and `_split_text_into_chunks` (summarizer.py line 239). -/
def sentSplit (text : List Char) : List (List Char) := sentSplitAux text [] false false

/-- Fueled worker for Python slicing `[l[i:i+n] for i in range(0, len(l), n)]`. -/
def slicesF : Nat → Nat → List Char → List (List Char)
  | 0, _, _ => []
  | _ + 1, _, [] => []
  | fuel + 1, n, c :: rest =>
    if n = 0 then [] else (c :: rest).take n :: slicesF fuel n ((c :: rest).drop n)

/-- Python `[l[i:i+n] for i in range(0, len(l), n)]` (for `n > 0`; Python raises on
`n = 0`, which no caller does). -/
def slices (n : Nat) (l : List Char) : List (List Char) := slicesF l.length n l

/-- The greedy packing loop of `chunk_text` (youtube_processor.py lines 388-401 for
sentences and 410-422 for words — both loops have the same shape): flush the current
piece when `len(cur) + len(next) + 1 > max_chunk_size` and `cur` is non-empty,
otherwise append with a single separating space.  The trailing flush of a non-empty
`cur` is the base case. -/
def packCT (maxSize : Nat) (cur : List Char) : List (List Char) → List (List Char)
  | [] => if cur = [] then [] else [cur]
  | s :: rest =>
    if maxSize < cur.length + s.length + 1 ∧ cur ≠ [] then
      cur :: packCT maxSize s rest
    else if cur = [] then packCT maxSize s rest
    else packCT maxSize (cur ++ ' ' :: s) rest

/-- `YouTubeProcessor.chunk_text` (youtube_processor.py lines 367-425): early return for
short text, sentence split, greedy sentence packing, then re-packing of oversized
chunks by words. -/
def chunkText (text : List Char) (maxSize : Nat) : List (List Char) :=
  if text.length ≤ maxSize then [text]
  else
    let chunks := packCT maxSize [] (sentSplit text)
    (chunks.map (fun ch =>
      if ch.length ≤ maxSize then [ch] else packCT maxSize [] (pyWords ch))).flatten

/-- The greedy packing loop of `_split_text_into_chunks` (summarizer.py lines 255-265).
Unlike `packCT` the comparison is `len(cur) + len(next) > chunk_size` (the joining
space is not counted) and flushed pieces are stripped. -/
def packST (cs : Nat) (cur : List Char) : List (List Char) → List (List Char)
  | [] => if cur = [] then [] else [pyStrip cur]
  | s :: rest =>
    if cs < cur.length + s.length ∧ cur ≠ [] then
      pyStrip cur :: packST cs s rest
    else if cur = [] then packST cs s rest
    else packST cs (cur ++ ' ' :: s) rest

/-- `Summarizer._split_text_into_chunks` (summarizer.py lines 234-278): sentence split,
character-slicing of sentences longer than `chunk_size`, greedy packing, and the
forced character-slicing fallback when fewer than `expected_chunks * 0.5` chunks came
out (`len(chunks) < expected * 0.5` is exactly `2 * len(chunks) < expected`). -/
def splitTextIntoChunks (text : List Char) (cs : Nat) : List (List Char) :=
  let processed := ((sentSplit text).map (fun s =>
    if cs < s.length then slices cs s else [s])).flatten
  let chunks := packST cs [] processed
  let expected := max 1 (text.length / cs + (if text.length % cs > 0 then 1 else 0))
  if 2 * chunks.length < expected ∧ cs < text.length then slices cs text else chunks

/-! ## Summarization orchestrator (summarizer.py)

An `Oracle` models the OpenAI chat-completion endpoint: call number `k` either
returns the response content (`Except.ok`) or raises with an error message
(`Except.error`).  Prompt construction (title annotations, chunk text) only feeds the
model and does not influence the embedded control flow, so it is not modelled; the
oracle's answer may depend on the call index alone. -/

def Oracle : Type := Nat → Except (List Char) (List Char)

/-- The fixed message returned by `summarize` for empty input (summarizer.py
line 137). -/
def emptyTextMsg : List Char :=
  "Не удалось создать суммаризацию из-за пустого текста.".data

/-- The error message built by `_summarize_single_chunk`'s handler (summarizer.py
line 232): the fixed text followed by `str(e)`. -/
def chunkFailMsg (e : List Char) : List Char :=
  ("Не удалось создать суммаризацию: ".data) ++ e

/-- The `"\n\n"` separator used by `_split_text_and_summarize` and
`_combine_summaries`. -/
def nlnl : List Char := '\n' :: '\n' :: []

/-- One `_summarize_single_chunk` call (summarizer.py lines 182-232): the response
content is stripped on success; an exception is converted to `chunkFailMsg`. -/
def callRes (o : Oracle) (k : Nat) : List Char :=
  match o k with
  | .ok s => pyStrip s
  | .error e => chunkFailMsg e

/-- Python truthiness/blank test `not chunk or len(chunk.strip()) == 0`
(summarizer.py line 311). -/
def chunkBlank (c : List Char) : Bool := c.isEmpty || (pyStrip c).isEmpty

/-- The per-chunk loop of `_split_text_and_summarize` (summarizer.py lines 306-320):
blank chunks are skipped with no call; others get one call whose (possibly
error-message) result is appended.  Returns the partial-summary list and the next
call index. -/
def partsLoopS (o : Oracle) (k : Nat) : List (List Char) → List (List Char) × Nat
  | [] => ([], k)
  | c :: rest =>
    if chunkBlank c then partsLoopS o k rest
    else
      let pr := partsLoopS o (k + 1) rest
      (callRes o k :: pr.1, pr.2)

/-- `Summarizer._combine_summaries` (summarizer.py lines 338-387): one call; on
success return the stripped response, on failure return `"\n\n".join(summaries)`. -/
def combineSummaries (o : Oracle) (k : Nat) (summaries : List (List Char)) : List Char :=
  match o k with
  | .ok s => pyStrip s
  | .error _ => pyJoin nlnl summaries

/-- The chunk list actually used by `_split_text_and_summarize` (summarizer.py lines
286-298): the result of `_split_text_into_chunks`, replaced by raw character slices
when it came out as a single chunk although `len(text) > chunk_size * 1.5`
(`2 * len(text) > 3 * chunk_size` exactly). -/
def effectiveChunks (text : List Char) (cs : Nat) : List (List Char) :=
  let chunks := splitTextIntoChunks text cs
  if chunks.length = 1 ∧ 3 * cs < 2 * text.length then slices cs text else chunks

/-- `Summarizer._split_text_and_summarize` (summarizer.py lines 280-336), returning
`(final text, number of chunk calls, number of combine calls)`.  A single chunk is
summarized directly; otherwise each non-blank chunk gets one call, and the results
are joined with `"\n\n"` when there are at most 3 chunks or handed to
`_combine_summaries` when there are more. -/
def splitTextAndSummarize (o : Oracle) (text : List Char) (cs : Nat) :
    List Char × Nat × Nat :=
  let chunks := effectiveChunks text cs
  if chunks.length = 1 then (callRes o 0, 1, 0)
  else
    let pr := partsLoopS o 0 chunks
    if chunks.length ≤ 3 then (pyJoin nlnl pr.1, pr.2, 0)
    else (combineSummaries o pr.2 pr.1, pr.2, 1)

/-- `Summarizer.summarize` (summarizer.py lines 130-168) after the chunk size has been
fixed: empty text returns the fixed message with no call; text longer than the chunk
size goes through the multi-pass path; otherwise one single-chunk call is made. -/
def summarizeCore (o : Oracle) (text : List Char) (cs : Nat) : List Char × Nat × Nat :=
  if text = [] then (emptyTextMsg, 0, 0)
  else if cs < text.length then splitTextAndSummarize o text cs
  else (callRes o 0, 1, 0)

/-- Python `pat in s` for strings: some contiguous occurrence. -/
def leadsWith : List Char → List Char → Bool
  | [], _ => true
  | _ :: _, [] => false
  | p :: ps, c :: rest => p == c && leadsWith ps rest

/-- Python `pat in s` (substring test). -/
def hasSub (pat : List Char) : List Char → Bool
  | [] => pat.isEmpty
  | c :: rest => leadsWith pat (c :: rest) || hasSub pat rest

/-- Python `str.lower()` restricted to ASCII (model names are ASCII). -/
def pyLower (l : List Char) : List Char := l.map Char.toLower

/-- `Summarizer._get_optimal_chunk_size` (summarizer.py lines 170-180): substring
matching on the lowered model name. -/
def getOptimalChunkSize (modelName : List Char) : Nat :=
  if hasSub ("gpt-4-turbo".data) (pyLower modelName)
      || hasSub ("gpt-4-1106-preview".data) (pyLower modelName) then 12000
  else if hasSub ("16k".data) (pyLower modelName) then 8000
  else 4000

/-- `Summarizer.summarize` including the per-model chunk-size choice. -/
def summarize (o : Oracle) (text modelName : List Char) : List Char × Nat × Nat :=
  summarizeCore o text (getOptimalChunkSize modelName)

/-! ## Transcript assembly and validation (youtube_processor.py) -/

/-- A raw subtitle item as seen from Python: a dict whose `text`, `start` and
`duration` keys may each be missing.  Caption start times are modelled as `Int`. -/
structure RawFrag where
  text : Option (List Char)
  start : Option Int
  duration : Option Int
deriving DecidableEq

/-- Raw subtitle data handed to `_validate_subtitle_data` / `_construct_transcript_text`:
an XML string (whose parsability is carried as the `xmlOk` flag standing for
`ET.fromstring` succeeding), a list whose items are dicts (`some`) or non-dicts
(`none`), or some other falsy object such as `None`. -/
inductive SubData where
  | strData (xmlOk : Bool) (s : List Char)
  | listData (items : List (Option RawFrag))
  | otherData
deriving DecidableEq

/-- `YouTubeProcessor._validate_subtitle_data` (youtube_processor.py lines 101-133):
falsy data is rejected; a string must be non-blank and parse as XML; a list must be
non-empty with a first item that is a dict containing `'text'`. -/
def validateSubtitleData : SubData → Bool
  | .strData xmlOk s =>
    if s = [] then false
    else if pyStrip s = [] then false
    else xmlOk
  | .listData items =>
    match items with
    | [] => false
    | first :: _ =>
      match first with
      | some fr => fr.text.isSome
      | none => false
  | .otherData => false

/-- Stable insertion by `start` key: the element is placed before the first element
with a key `≥` its own.  Used with `sortByKey` below. -/
def insertByKey {α : Type} (x : Int × α) : List (Int × α) → List (Int × α)
  | [] => [x]
  | y :: ys => if x.1 ≤ y.1 then x :: y :: ys else y :: insertByKey x ys

/-- Stable sort by `start` key.  Python's `sorted(data, key=lambda x: x['start'])` is a
stable sort on the same key, and a stable sort is extensionally determined by the key
and the input order, so this insertion sort is a faithful model of it. -/
def sortByKey {α : Type} : List (Int × α) → List (Int × α)
  | [] => []
  | x :: xs => insertByKey x (sortByKey xs)

/-- Collects `(item['start'], item['text'])` for every item, failing (`none`) if some
item is not a dict or lacks either key.  In the source the missing-`start` access
raises inside `sorted(...)` and the missing-`text` access raises inside the
construction loop; both exceptions are caught identically by every caller, so the
two are merged into one up-front check. -/
def extractPairs : List (Option RawFrag) → Option (List (Int × List Char))
  | [] => some []
  | none :: _ => none
  | some fr :: rest =>
    match fr.start, fr.text with
    | some st, some tx => (extractPairs rest).map (fun ps => (st, tx) :: ps)
    | _, _ => none

/-- Whether a stripped item text ends with one of `'.!?…,:;'`
(youtube_processor.py line 352). -/
def endsPunct (s : List Char) : Bool :=
  match s.getLast? with
  | some c => isPunct c
  | none => false

/-- Whether a raw item text begins with one of `'.!?…,:;'`
(youtube_processor.py line 359). -/
def startsPunct (s : List Char) : Bool :=
  match s with
  | c :: _ => isPunct c
  | [] => false

/-- The item loop of `_construct_transcript_text` (youtube_processor.py lines 345-362)
over the sorted raw texts: each text is stripped and dropped if blank; a trailing
space is appended exactly when the stripped text does not end in punctuation, the
item is not the last one, and the next item's raw text is non-empty and does not
begin with punctuation. -/
def assembleParts : List (List Char) → List (List Char)
  | [] => []
  | [t] => if pyStrip t = [] then [] else [pyStrip t]
  | t :: t' :: rest =>
    let s := pyStrip t
    if s = [] then assembleParts (t' :: rest)
    else if ¬endsPunct s ∧ t' ≠ [] ∧ ¬startsPunct t' then
      (s ++ ' ' :: []) :: assembleParts (t' :: rest)
    else s :: assembleParts (t' :: rest)

/-- `YouTubeProcessor._construct_transcript_text` (youtube_processor.py lines 328-365)
on raw data, with exceptions modelled as `Except.error`: sorting a non-empty string
raises `TypeError` via the `x['start']` key function, a falsy argument returns `""`,
and list data is sorted by `start` and joined via `assembleParts`. -/
def constructTT : SubData → Except Unit (List Char)
  | .strData _ s => if s = [] then .ok [] else .error ()
  | .otherData => .ok []
  | .listData items =>
    if items = [] then .ok []
    else
      match extractPairs items with
      | none => .error ()
      | some keyed => .ok ((assembleParts ((sortByKey keyed).map (fun p => p.2))).flatten)

/-- The candidate-acceptance test repeated at every strategy site of `get_subtitles`
(youtube_processor.py lines 186-192, 214-220, 241-247, 264-270, 285-291): validate,
construct, and require `subtitle_text` truthy with stripped length at least 10; any
exception or failed check rejects the candidate (`none`) and the cascade advances. -/
def tryAccept (d : SubData) : Option (List Char) :=
  if validateSubtitleData d then
    match constructTT d with
    | .error _ => none
    | .ok t => if t ≠ [] ∧ 10 ≤ (pyStrip t).length then some t else none
  else none

/-! ## Caption fetch cascade (youtube_processor.py `get_subtitles`)

The YouTube transcript API for one fixed video is modelled as an environment:
the track list (or the exception raised while listing), per-track fetch and
translation results, and the result of the yt-dlp fallback.  A `Track` models one
caption track object; `find_transcript([lang])` is modelled by its API semantics,
returning the listed track with that language code, and `find_generated_transcript`
by the first listed generated track matching a preferred language. -/

structure Track where
  code : List Char
  gen : Bool
  fetchRes : Except Unit SubData
  transRes : List Char → Except Unit (Except Unit SubData)

structure Env where
  listRes : Except Unit (List Track)
  ytdlpRes : Except Unit (Option (List Char))
  videoTitle : List Char

/-- First defined value of `f` over a list, in order. -/
def firstSome {α β : Type} (f : α → Option β) : List α → Option β
  | [] => none
  | a :: rest =>
    match f a with
    | some b => some b
    | none => firstSome f rest

/-- The `available_languages` list (youtube_processor.py line 175). -/
def trackCodes (ts : List Track) : List (List Char) := ts.map (fun t => t.code)

/-- Fetch a track and run the acceptance test; any exception rejects. -/
def fetchAccept (t : Track) : Option (List Char) :=
  match t.fetchRes with
  | .ok d => tryAccept d
  | .error _ => none

/-- Strategy 1, direct-language fetch (youtube_processor.py lines 172-197): for each
preferred language present in the track list, fetch that track and accept or move
on. -/
def directPhase (ts : List Track) (langs : List (List Char)) : Option (List Char) :=
  firstSome (fun lang =>
    if (trackCodes ts).contains lang then
      match ts.find? (fun t => t.code == lang) with
      | some tr => fetchAccept tr
      | none => none
    else none) langs

/-- Strategy 2, translated fetch (youtube_processor.py lines 200-227): for each
preferred language, try to translate every listed track into it and accept the
first validated result. -/
def transPhase (ts : List Track) (langs : List (List Char)) : Option (List Char) :=
  firstSome (fun lang =>
    firstSome (fun base =>
      match base.transRes lang with
      | .ok (.ok d) => tryAccept d
      | _ => none) ts) langs

/-- `transcript_list.find_generated_transcript(languages)` (youtube_processor.py line
234): the first generated track whose language is preferred. -/
def findGenerated (ts : List Track) (langs : List (List Char)) : Option Track :=
  firstSome (fun lang => ts.find? (fun t => t.gen && t.code == lang)) langs

/-- Strategies 4 and 5, any-available fetch then any-available translated to English
(youtube_processor.py lines 258-295). -/
def anyAvailPhase (ts : List Track) : Option (List Char) :=
  match firstSome fetchAccept ts with
  | some t => some t
  | none =>
    firstSome (fun tr =>
      match tr.transRes ("en".data) with
      | .ok (.ok d) => tryAccept d
      | _ => none) ts

/-- The final message raised after the yt-dlp fallback also fails
(youtube_processor.py lines 320-326). -/
def finalFailMsg : List Char :=
  ("Не удалось получить субтитры для видео.\n\nВидео содержит субтитры, но все попытки их извлечения не удались:\n• Основные субтитры повреждены или недоступны\n• Переводные субтитры также недоступны\n• Альтернативные методы извлечения не сработали\n• Технические проблемы с YouTube API\n\nПопробуйте другое видео или повторите попытку позже.").data

/-- The generic exception handler of `get_subtitles` (youtube_processor.py lines
307-326): try the yt-dlp fallback, return its text when truthy, otherwise raise the
final message. -/
def finalFallback (env : Env) : Except (List Char) (Option (List Char)) :=
  match env.ytdlpRes with
  | .ok (some t) => if t = [] then .error finalFailMsg else .ok (some t)
  | _ => .error finalFailMsg

/-- `YouTubeProcessor.get_subtitles` (youtube_processor.py lines 135-326).
`.ok (some t)` is a returned transcript, `.error msg` a raised exception, and
`.ok none` the implicit `return None` reached when control falls off the end of the
`try` suite.  The guards `if not transcript` on lines 230 and 255 test the stale
`transcript` variable, which is truthy whenever some preferred language was present
in the track list (strategy 1 assigned it even if validation then failed) or the
generated lookup succeeded — in those cases strategies 3-5 are skipped and the
function falls off the end.  The outer `except TranscriptsDisabled` and
`except NoTranscriptFound` handlers (lines 299-305) are reachable only from the
unwrapped `list(transcript_list)` materialisation on line 257 — every API call that
realistically raises those exceptions sits under an inner handler that absorbs or
re-wraps them — and the model treats that materialisation as pure, so those two
handlers do not appear. -/
def getSubtitles (env : Env) (langs : List (List Char)) :
    Except (List Char) (Option (List Char)) :=
  match env.listRes with
  | .error _ => finalFallback env
  | .ok ts =>
    match directPhase ts langs with
    | some t => .ok (some t)
    | none =>
      match transPhase ts langs with
      | some t => .ok (some t)
      | none =>
        if langs.any (fun l => (trackCodes ts).contains l) then .ok none
        else
          match findGenerated ts langs with
          | some tr =>
            (match fetchAccept tr with
             | some t => .ok (some t)
             | none => .ok none)
          | none =>
            if ts.isEmpty then finalFallback env
            else
              match anyAvailPhase ts with
              | some t => .ok (some t)
              | none => .ok none

/-! ## Video id extraction (youtube_processor.py `extract_video_id`)

Each pattern of the list on lines 47-52 consists of optional scheme and `www.`
prefixes, a mandatory literal core, and a greedy one-or-more capture group excluding
a small character set.  Because the prefixes are optional and none of the prefix
literals contains the core, `re.search`'s leftmost-match capture is exactly the
greedy capture at the first core occurrence that is followed by at least one
admissible character; `findCore` scans for precisely that. -/

/-- The greedy capture `[^X\s]+`: the maximal admissible run. -/
def grab (bad : Char → Bool) (l : List Char) : List Char :=
  l.takeWhile (fun c => !(bad c))

/-- Scan for the first occurrence of `core` followed by a non-empty admissible run and
return that run. -/
def findCore (core : List Char) (bad : Char → Bool) : List Char → Option (List Char)
  | [] => none
  | c :: rest =>
    if leadsWith core (c :: rest) ∧ grab bad ((c :: rest).drop core.length) ≠ [] then
      some (grab bad ((c :: rest).drop core.length))
    else findCore core bad rest

/-- Character set excluded by the `watch?v=` capture group `([^&\s]+)`. -/
def watchBad (c : Char) : Bool := c == '&' || pyIsSpace c

/-- Character set excluded by the other capture groups `([^\?\s]+)`. -/
def pathBad (c : Char) : Bool := c == '?' || pyIsSpace c

def watchCore : List Char := "youtube.com/watch?v=".data
def embedCore : List Char := "youtube.com/embed/".data
def beCore : List Char := "youtu.be/".data
def shortsCore : List Char := "youtube.com/shorts/".data

/-- `YouTubeProcessor.extract_video_id` (youtube_processor.py lines 33-60): the four
URL shapes tried in order, first match wins, `ValueError` when none matches. -/
def extractVideoId (url : List Char) : Except Unit (List Char) :=
  match findCore watchCore watchBad url with
  | some v => .ok v
  | none =>
    match findCore embedCore pathBad url with
    | some v => .ok v
    | none =>
      match findCore beCore pathBad url with
      | some v => .ok v
      | none =>
        match findCore shortsCore pathBad url with
        | some v => .ok v
        | none => .error ()

/-- `YouTubeProcessor.process_video` (youtube_processor.py lines 427-475): a
`ValueError` from id extraction yields `(None, None)`; `get_video_info` never raises
(it catches everything and falls back to defaults, modelled by `env.videoTitle`);
any exception from `get_subtitles`, a `None` result, or a falsy transcript also
yields `(None, None)`; otherwise the title and transcript are returned. -/
def processVideo (env : Env) (url : List Char) (langs : List (List Char)) :
    Option (List Char) × Option (List Char) :=
  match extractVideoId url with
  | .error _ => (none, none)
  | .ok _ =>
    match getSubtitles env langs with
    | .error _ => (none, none)
    | .ok none => (none, none)
    | .ok (some t) => if t = [] then (none, none) else (some env.videoTitle, some t)

/-! ## Spec-side reformulation of the assembler loop (for claim C6)

`specPieces` restates the amended assembly rule in the spec's terms: each fragment
text is paired with the raw text of the fragment immediately following it in sorted
order, stripped, dropped when blank, and given a trailing space exactly when the
pairwise condition holds.  It is proved equal to the source-shaped `assembleParts`. -/

/-- The raw text of the next fragment, `none` for the last one. -/
def nextRaw : List (List Char) → List (Option (List Char))
  | [] => []
  | [_] => [none]
  | _ :: t :: rest => some t :: nextRaw (t :: rest)

/-- One fragment's contribution: stripped text, possibly with a trailing space,
or nothing when blank. -/
def spacedPiece (t : List Char) (nx : Option (List Char)) : List (List Char) :=
  let s := pyStrip t
  if s = [] then []
  else
    match nx with
    | none => [s]
    | some u => if ¬endsPunct s ∧ u ≠ [] ∧ ¬startsPunct u then [s ++ ' ' :: []] else [s]

/-- The assembly rule stated pairwise on consecutive fragments. -/
def specPieces (texts : List (List Char)) : List (List Char) :=
  ((texts.zip (nextRaw texts)).map (fun pr => spacedPiece pr.1 pr.2)).flatten

/-- A fully-populated subtitle dict built from a `(start, text)` pair. -/
def mkFullItem (p : Int × List Char) : Option RawFrag :=
  some { text := some p.2, start := some p.1, duration := some 0 }

/-! ## Concrete inputs used by counterexamples and witnesses -/

/-- C1 counterexample input: two sentences that pack into one 6-character chunk. -/
def c1txt : List Char := "ab. cd".data

/-- C1 witness input. -/
def c1wtxt : List Char := "aaa bbb. ccccccc".data

/-- An oracle whose every call succeeds with content `"S"`. -/
def okOracle : Oracle := fun _ => .ok ("S".data)

/-- An oracle whose every call raises with message `"boom"`. -/
def failOracle : Oracle := fun _ => .error ("boom".data)

/-- C2 counterexample input: 11 characters, split into two 5-character chunks at
chunk size 5. -/
def c2txt : List Char := "aaaa. bbbb.".data

/-- C5 counterexample input: five 3-character sentences, five chunks at chunk
size 3. -/
def c5txt : List Char := "aa. bb. cc. dd. ee.".data

/-- C5 counterexample oracle: chunk call 1 fails, the combine call (call 5) succeeds
with content `"OK"`, everything else succeeds with `"S"`. -/
def c5Oracle : Oracle := fun k =>
  if k = 1 then .error ("boom".data)
  else if k = 5 then .ok ("OK".data)
  else .ok ("S".data)

/-- C3 failing environment, track part: a listed `ru` track whose caption data is an
empty list (fails validation) and which cannot be translated. -/
def ruTrack : Track :=
  { code := "ru".data, gen := false, fetchRes := .ok (SubData.listData []),
    transRes := fun _ => .error () }

/-- C3 failing environment: the `ru` track above, with a yt-dlp fallback that would
have returned a perfectly good transcript had it ever been attempted. -/
def cexEnv3 : Env :=
  { listRes := .ok [ruTrack], ytdlpRes := .ok (some ("valid subtitles text".data)),
    videoTitle := "T".data }

/-- The default preferred languages `['ru', 'en']`. -/
def defaultLangs : List (List Char) := ["ru".data, "en".data]

/-- C9 counterexample item: a dict with `text` and `start` but no `duration`. -/
def noDurItem : Option RawFrag :=
  some { text := some ("subtitlestexthere".data), start := some 0, duration := none }

/-- C6 counterexample fragment: text carrying leading and trailing whitespace. -/
def padItem : Option RawFrag :=
  some { text := some (" ab ".data), start := some 0, duration := some 0 }

/-- The spec-level statement that a URL shape does not match: no occurrence of the
shape's literal core is followed by an admissible capture character. -/
def noShape (core : List Char) (bad : Char → Bool) (url : List Char) : Prop :=
  ∀ pre suf : List Char, url = pre ++ core ++ suf → grab bad suf = []

deriving instance DecidableEq for Except

/-! ## Helper lemmas -/

/-- An infix of `t` is an infix of `u ++ t`. -/
theorem infix_ext (u : List Char) {s t : List Char} (h : s <:+: t) : s <:+: u ++ t :=
  h.trans (List.suffix_append u t).isInfix

/-- An infix of `t` is an infix of `c :: t`. -/
theorem infix_cons_ext (c : Char) {s t : List Char} (h : s <:+: t) : s <:+: c :: t :=
  h.trans (List.suffix_cons c t).isInfix

/-- Every element of a list is an infix of its `pyJoin`. -/
theorem mem_pyJoin_infix (sep : List Char) :
    ∀ (l : List (List Char)) (s : List Char), s ∈ l → s <:+: pyJoin sep l := by
  intro l
  induction l with
  | nil => intro s hs; cases hs
  | cons a rest ih =>
    intro s hs
    cases rest with
    | nil =>
      rw [List.mem_singleton] at hs
      subst hs
      exact List.infix_refl _
    | cons b r =>
      rcases List.mem_cons.mp hs with h1 | h2
      · subst h1
        rw [pyJoin]
        exact ((List.prefix_append s (sep ++ pyJoin sep (b :: r))).isInfix).trans
          (by rw [List.append_assoc])
      · rw [pyJoin, List.append_assoc]
        exact infix_ext a (infix_ext sep (ih s h2))

/-- A `"\n\n"` join of at least two parts is non-empty. -/
theorem pyJoin_nlnl_ne_nil :
    ∀ (l : List (List Char)), 2 ≤ l.length → pyJoin nlnl l ≠ [] := by
  intro l h
  match l with
  | a :: b :: r => simp [pyJoin, nlnl]

/-- C4: if the combine call fails, `_combine_summaries` returns (rather than raises)
`"\n\n".join(summaries)`; when there are at least two partial summaries that result
is non-empty and contains every partial summary, losing none. -/
theorem combine_failure_keeps_parts (o : Oracle) (k : Nat) (l : List (List Char))
    (e : List Char) (hf : o k = .error e) :
    combineSummaries o k l = pyJoin nlnl l ∧
    (2 ≤ l.length → pyJoin nlnl l ≠ [] ∧ ∀ s ∈ l, s <:+: pyJoin nlnl l) := by
  constructor
  · simp [combineSummaries, hf]
  · intro h2
    exact ⟨pyJoin_nlnl_ne_nil l h2, fun s hs => mem_pyJoin_infix nlnl l s hs⟩

/-- Witness for C4 at a failing oracle and two concrete summaries. -/
theorem combine_failure_keeps_parts_witness :
    combineSummaries failOracle 0 ["A".data, "B".data] =
      pyJoin nlnl ["A".data, "B".data] ∧
    pyJoin nlnl ["A".data, "B".data] ≠ [] ∧
    "A".data <:+: pyJoin nlnl ["A".data, "B".data] :=
  have h := combine_failure_keeps_parts failOracle 0 ["A".data, "B".data]
    ("boom".data) rfl
  ⟨h.1, (h.2 (by decide)).1, (h.2 (by decide)).2 ("A".data) (by decide)⟩

/-- C10: `summarize` on empty (falsy) input makes no language-model call and returns
the fixed non-empty failure message; and a failing single-pass call is converted into
the error-message string rather than an exception. -/
theorem summarize_total_on_failure :
    (∀ (o : Oracle) (cs : Nat), summarizeCore o [] cs = (emptyTextMsg, 0, 0)) ∧
    emptyTextMsg ≠ [] ∧
    (∀ (o : Oracle) (text e : List Char) (cs : Nat),
      text ≠ [] → text.length ≤ cs → o 0 = .error e →
      summarizeCore o text cs = (chunkFailMsg e, 1, 0)) := by
  refine ⟨fun o cs => by simp [summarizeCore], by decide, ?_⟩
  intro o text e cs hne hle hf
  have hlt : ¬ cs < text.length := by omega
  simp [summarizeCore, hne, hlt, callRes, hf]

/-- Witness for C10 at the all-failing oracle. -/
theorem summarize_total_on_failure_witness :
    summarizeCore failOracle ("hi".data) 5 = (chunkFailMsg ("boom".data), 1, 0) ∧
    summarizeCore failOracle [] 5 = (emptyTextMsg, 0, 0) :=
  ⟨summarize_total_on_failure.2.2 failOracle ("hi".data) ("boom".data) 5
      (by decide) (by decide) rfl,
    summarize_total_on_failure.1 failOracle 5⟩

/-- The per-chunk loop makes exactly one call per non-blank chunk and one partial
summary per non-blank chunk. -/
theorem partsLoopS_counts (o : Oracle) :
    ∀ (l : List (List Char)) (k : Nat),
      (partsLoopS o k l).1.length = (l.filter (fun c => !chunkBlank c)).length ∧
      (partsLoopS o k l).2 = k + (l.filter (fun c => !chunkBlank c)).length := by
  intro l
  induction l with
  | nil => intro k; simp [partsLoopS]
  | cons c rest ih =>
    intro k
    by_cases hb : chunkBlank c = true
    · simpa [partsLoopS, hb] using ih k
    · have h1 := (ih (k + 1)).1
      have h2 := (ih (k + 1)).2
      simp [partsLoopS, hb, h1, h2]
      omega

/-- The `i`-th partial summary is the result of call number `k + i`. -/
theorem partsLoopS_getElem (o : Oracle) :
    ∀ (l : List (List Char)) (k i : Nat),
      i < (partsLoopS o k l).1.length →
      (partsLoopS o k l).1.get? i = some (callRes o (k + i)) := by
  intro l
  induction l with
  | nil => intro k i h; simp [partsLoopS] at h
  | cons c rest ih =>
    intro k i h
    by_cases hb : chunkBlank c = true
    · rw [show partsLoopS o k (c :: rest) = partsLoopS o k rest by
        simp [partsLoopS, hb]] at h ⊢
      exact ih k i h
    · have hcons : (partsLoopS o k (c :: rest)).1 =
          callRes o k :: (partsLoopS o (k + 1) rest).1 := by
        simp [partsLoopS, hb]
      rw [hcons] at h ⊢
      cases i with
      | zero => simp
      | succ j =>
        have hj : j < (partsLoopS o (k + 1) rest).1.length := by
          simpa using h
        have := ih (k + 1) j hj
        simpa [show k + 1 + j = k + (j + 1) by omega] using this


/-- C2 (amended): a non-empty transcript of length at most the chunk budget gets
exactly one chunk call and no combine call.  A longer transcript with a single
effective chunk also gets exactly one call and no combine call; with several
effective chunks it gets one call per non-blank chunk, plus exactly one combine call
when there are more than 3 chunks and none when there are at most 3. -/
theorem summarize_call_counts (o : Oracle) (text : List Char) (cs : Nat)
    (hne : text ≠ []) (_hcs : 0 < cs) :
    (text.length ≤ cs → (summarizeCore o text cs).2 = (1, 0)) ∧
    (cs < text.length →
      ((effectiveChunks text cs).length = 1 → (summarizeCore o text cs).2 = (1, 0)) ∧
      ((effectiveChunks text cs).length ≠ 1 →
        (summarizeCore o text cs).2.1 =
          ((effectiveChunks text cs).filter (fun c => !chunkBlank c)).length ∧
        (summarizeCore o text cs).2.2 =
          if 3 < (effectiveChunks text cs).length then 1 else 0)) := by
  constructor
  · intro hle
    have hlt : ¬ cs < text.length := by omega
    simp [summarizeCore, hne, hlt]
  · intro hlt
    have hs : summarizeCore o text cs = splitTextAndSummarize o text cs := by
      simp [summarizeCore, hne, hlt]
    constructor
    · intro h1
      rw [hs]
      simp [splitTextAndSummarize, h1]
    · intro h1
      rw [hs]
      have hc2 := (partsLoopS_counts o (effectiveChunks text cs) 0).2
      by_cases h3 : (effectiveChunks text cs).length ≤ 3
      · have h3' : ¬ 3 < (effectiveChunks text cs).length := by omega
        simp [splitTextAndSummarize, h1, h3, h3', hc2]
      · have h3' : 3 < (effectiveChunks text cs).length := by omega
        simp [splitTextAndSummarize, h1, h3, h3', hc2]

/-- C2 counterexample: an 11-character transcript at budget 5 yields 2 chunks, which
is greater than 1, yet zero combine calls are made (the code only combines above 3
chunks), contradicting the claim's "exactly one combine call whenever the chunk
count is greater than 1". -/
theorem combine_threshold_counterexample :
    5 < c2txt.length ∧
    (effectiveChunks c2txt 5).length = 2 ∧
    (summarizeCore okOracle c2txt 5).2.2 = 0 := by decide

/-- Witness for C2 exercising both the single-pass and the multi-pass branch. -/
theorem summarize_call_counts_witness :
    (summarizeCore okOracle ("hi".data) 5).2 = (1, 0) ∧
    (summarizeCore okOracle c2txt 5).2.1 = 2 ∧
    (summarizeCore okOracle c2txt 5).2.2 = 0 :=
  have h1 := (summarize_call_counts okOracle ("hi".data) 5 (by decide)
    (by decide)).1 (by decide)
  have h2 := ((summarize_call_counts okOracle c2txt 5 (by decide)
    (by decide)).2 (by decide)).2 (by decide)
  ⟨h1, by rw [h2.1]; decide, by rw [h2.2]; decide⟩

/-- C5 (amended): in the multi-chunk path a failed chunk call never aborts the
operation: the partial-summary list has one entry per non-blank chunk, its `i`-th
entry is the result of call `i`, and that entry is the explicit placeholder naming
the failure whenever call `i` raised.  Every partial summary — placeholders included —
appears in the final text when no combine call is made (at most 3 chunks) or when
the combine call fails; blank chunks are skipped without a call, and a successful
combine call replaces the partial summaries by the model's output. -/
theorem failed_chunk_placeholder (o : Oracle) (text : List Char) (cs : Nat)
    (hm : (effectiveChunks text cs).length ≠ 1) :
    (partsLoopS o 0 (effectiveChunks text cs)).1.length =
      ((effectiveChunks text cs).filter (fun c => !chunkBlank c)).length ∧
    (∀ i, i < (partsLoopS o 0 (effectiveChunks text cs)).1.length →
      (partsLoopS o 0 (effectiveChunks text cs)).1.get? i = some (callRes o i)) ∧
    (∀ i e, i < (partsLoopS o 0 (effectiveChunks text cs)).1.length →
      o i = .error e →
      (partsLoopS o 0 (effectiveChunks text cs)).1.get? i =
        some (chunkFailMsg e)) ∧
    ((effectiveChunks text cs).length ≤ 3 →
      ∀ p ∈ (partsLoopS o 0 (effectiveChunks text cs)).1,
        p <:+: (splitTextAndSummarize o text cs).1) ∧
    (∀ e, 3 < (effectiveChunks text cs).length →
      o (partsLoopS o 0 (effectiveChunks text cs)).2 = .error e →
      ∀ p ∈ (partsLoopS o 0 (effectiveChunks text cs)).1,
        p <:+: (splitTextAndSummarize o text cs).1) := by
  refine ⟨(partsLoopS_counts o (effectiveChunks text cs) 0).1, ?_, ?_, ?_, ?_⟩
  · intro i hi
    simpa using partsLoopS_getElem o (effectiveChunks text cs) 0 i hi
  · intro i e hi he
    have := partsLoopS_getElem o (effectiveChunks text cs) 0 i hi
    simpa [callRes, he] using this
  · intro h3 p hp
    have hres : (splitTextAndSummarize o text cs).1 =
        pyJoin nlnl (partsLoopS o 0 (effectiveChunks text cs)).1 := by
      simp [splitTextAndSummarize, hm, h3]
    rw [hres]
    exact mem_pyJoin_infix nlnl _ p hp
  · intro e h3 he p hp
    have h3' : ¬ (effectiveChunks text cs).length ≤ 3 := by omega
    have hres : (splitTextAndSummarize o text cs).1 =
        pyJoin nlnl (partsLoopS o 0 (effectiveChunks text cs)).1 := by
      simp [splitTextAndSummarize, hm, h3', combineSummaries, he]
    rw [hres]
    exact mem_pyJoin_infix nlnl _ p hp

/-- C5 counterexample: five chunks, chunk call 1 fails, the combine call succeeds and
returns `"OK"` — the final text is `"OK"` and contains no marker for the failed
chunk, contradicting "the final text contains a distinguishable marker for the
failed chunk". -/
theorem marker_lost_counterexample :
    (effectiveChunks c5txt 3).length = 5 ∧
    c5Oracle 1 = .error ("boom".data) ∧
    (splitTextAndSummarize c5Oracle c5txt 3).1 = "OK".data ∧
    ¬ chunkFailMsg ("boom".data) <:+: (splitTextAndSummarize c5Oracle c5txt 3).1 := by
  refine ⟨by decide, rfl, by decide, ?_⟩
  decide

/-- Witness for C5: the failed call's placeholder occupies position 1 of the
partial-summary list. -/
theorem failed_chunk_placeholder_witness :
    (partsLoopS c5Oracle 0 (effectiveChunks c5txt 3)).1.length = 5 ∧
    (partsLoopS c5Oracle 0 (effectiveChunks c5txt 3)).1.get? 1 =
      some (chunkFailMsg ("boom".data)) :=
  have h := failed_chunk_placeholder c5Oracle c5txt 3 (by decide)
  ⟨by decide, h.2.2.1 1 ("boom".data) (by decide) rfl⟩

/-! ## Lemmas about the chunk_text pipeline (claim C1) -/

/-- Every sentence produced by the splitter is an infix of the input. -/
theorem sentSplitAux_mem_infix :
    ∀ (l cur : List Char) (pe inSep : Bool) (s : List Char),
      s ∈ sentSplitAux l cur pe inSep → s <:+: cur.reverse ++ l := by
  intro l
  induction l with
  | nil =>
    intro cur pe inSep s hs
    simp only [sentSplitAux, List.mem_singleton] at hs
    subst hs
    simp
  | cons c rest ih =>
    intro cur pe inSep s hs
    simp only [sentSplitAux] at hs
    split at hs
    · split at hs
      · have := ih [] false true s hs
        simp only [List.reverse_nil, List.nil_append] at this
        exact infix_ext cur.reverse (infix_cons_ext c this)
      · have := ih [c] (isSentEnd c) false s hs
        simp only [List.reverse_cons, List.reverse_nil, List.nil_append,
          List.singleton_append] at this
        exact infix_ext cur.reverse this
    · split at hs
      · rcases List.mem_cons.mp hs with h1 | h2
        · subst h1
          exact (List.prefix_append cur.reverse (c :: rest)).isInfix
        · have := ih [] false true s h2
          simp only [List.reverse_nil, List.nil_append] at this
          exact infix_ext cur.reverse (infix_cons_ext c this)
      · have := ih (c :: cur) (isSentEnd c) false s hs
        simpa [List.append_assoc] using this

/-- Every word produced by `wordsAux` is an infix of (the reversal of the
accumulator followed by) the input. -/
theorem wordsAux_mem_infix :
    ∀ (l cur : List Char) (s : List Char),
      s ∈ wordsAux l cur → s <:+: cur.reverse ++ l := by
  intro l
  induction l with
  | nil =>
    intro cur s hs
    simp only [wordsAux] at hs
    split at hs
    · cases hs
    · rw [List.mem_singleton] at hs
      subst hs
      simp
  | cons c rest ih =>
    intro cur s hs
    simp only [wordsAux] at hs
    split at hs
    · split at hs
      · have := ih [] s hs
        simp only [List.reverse_nil, List.nil_append] at this
        exact infix_ext cur.reverse (infix_cons_ext c this)
      · rcases List.mem_cons.mp hs with h1 | h2
        · subst h1
          exact (List.prefix_append cur.reverse (c :: rest)).isInfix
        · have := ih [] s h2
          simp only [List.reverse_nil, List.nil_append] at this
          exact infix_ext cur.reverse (infix_cons_ext c this)
    · have := ih (c :: cur) s hs
      simpa [List.append_assoc] using this

/-- Every word produced by `wordsAux` over a whitespace-free accumulator is non-empty
and whitespace-free. -/
theorem wordsAux_mem_sound :
    ∀ (l cur : List Char) (s : List Char),
      s ∈ wordsAux l cur → (∀ c ∈ cur, pyIsSpace c = false) →
      s ≠ [] ∧ ∀ c ∈ s, pyIsSpace c = false := by
  intro l
  induction l with
  | nil =>
    intro cur s hs hcur
    simp only [wordsAux] at hs
    split at hs
    · cases hs
    · rename_i hcne
      rw [List.mem_singleton] at hs
      subst hs
      refine ⟨by simpa using hcne, ?_⟩
      intro c hc
      exact hcur c (List.mem_reverse.mp hc)
  | cons c rest ih =>
    intro cur s hs hcur
    simp only [wordsAux] at hs
    split at hs
    · split at hs
      · exact ih [] s hs (by intro x hx; cases hx)
      · rename_i hcne
        rcases List.mem_cons.mp hs with h1 | h2
        · subst h1
          refine ⟨by simpa using hcne, ?_⟩
          intro x hx
          exact hcur x (List.mem_reverse.mp hx)
        · exact ih [] s h2 (by intro x hx; cases hx)
    · rename_i hcs
      refine ih (c :: cur) s hs ?_
      intro x hx
      rcases List.mem_cons.mp hx with h1 | h2
      · subst h1
        simpa using hcs
      · exact hcur x h2

/-- Splitting into words distributes over a whitespace character: the words of
`a ++ c :: b` are the words of `a` followed by the words of `b`. -/
theorem wordsAux_append_space (c : Char) (hc : pyIsSpace c = true) :
    ∀ (a b cur : List Char),
      wordsAux (a ++ c :: b) cur = wordsAux a cur ++ wordsAux b [] := by
  intro a
  induction a with
  | nil =>
    intro b cur
    simp only [List.nil_append, wordsAux, hc, if_true]
    split
    · simp [wordsAux, *]
    · simp [wordsAux, *]
  | cons d a' ih =>
    intro b cur
    by_cases hd : pyIsSpace d = true
    · by_cases hcur : cur = []
      · simp [wordsAux, hd, hcur, ih]
      · simp [wordsAux, hd, hcur, ih]
    · simp only [List.cons_append, wordsAux, hd]
      simp only [Bool.false_eq_true, if_false]
      exact ih b (d :: cur)

/-- Words distribute over the space-join used by the packing loops. -/
theorem pyWords_space_join (a b : List Char) :
    pyWords (a ++ ' ' :: b) = pyWords a ++ pyWords b :=
  wordsAux_append_space ' ' (by decide) a b []

/-- If every word of the accumulator and of every pending piece is an infix of
`text`, then so is every word of every chunk the packing loop produces. -/
theorem packCT_words_infix (text : List Char) (maxSize : Nat) :
    ∀ (sl : List (List Char)) (cur : List Char),
      (∀ w ∈ pyWords cur, w <:+: text) →
      (∀ s ∈ sl, ∀ w ∈ pyWords s, w <:+: text) →
      ∀ ch ∈ packCT maxSize cur sl, ∀ w ∈ pyWords ch, w <:+: text := by
  intro sl
  induction sl with
  | nil =>
    intro cur hcur _ ch hch
    simp only [packCT] at hch
    split at hch
    · cases hch
    · rw [List.mem_singleton] at hch
      subst hch
      exact hcur
  | cons s rest ih =>
    intro cur hcur hsl ch hch
    have hs : ∀ w ∈ pyWords s, w <:+: text := hsl s (List.mem_cons_self s rest)
    have hrest : ∀ x ∈ rest, ∀ w ∈ pyWords x, w <:+: text :=
      fun x hx => hsl x (List.mem_cons_of_mem s hx)
    simp only [packCT] at hch
    split at hch
    · rcases List.mem_cons.mp hch with h1 | h2
      · subst h1
        exact hcur
      · exact ih s hs hrest ch h2
    · split at hch
      · exact ih s hs hrest ch hch
      · refine ih (cur ++ ' ' :: s) ?_ hrest ch hch
        intro w hw
        rw [pyWords_space_join] at hw
        rcases List.mem_append.mp hw with h1 | h2
        · exact hcur w h1
        · exact hs w h2

/-- Every chunk the packing loop produces is inside the size bound or satisfies the
escape predicate `R` (instantiated with "is one oversized word"). -/
theorem packCT_mem_bound (R : List Char → Prop) (maxSize : Nat) :
    ∀ (ws : List (List Char)) (sub : List Char),
      (sub = [] ∨ sub.length ≤ maxSize ∨ R sub) →
      (∀ w ∈ ws, R w) →
      ∀ p ∈ packCT maxSize sub ws, p.length ≤ maxSize ∨ R p := by
  intro ws
  induction ws with
  | nil =>
    intro sub hsub _ p hp
    simp only [packCT] at hp
    split at hp
    · cases hp
    · rename_i hne
      rw [List.mem_singleton] at hp
      subst hp
      rcases hsub with h | h | h
      · exact absurd h hne
      · exact Or.inl h
      · exact Or.inr h
  | cons w rest ih =>
    intro sub hsub hws p hp
    have hw : R w := hws w (List.mem_cons_self w rest)
    have hrest : ∀ x ∈ rest, R x := fun x hx => hws x (List.mem_cons_of_mem w hx)
    simp only [packCT] at hp
    split at hp
    · rename_i hcond
      rcases List.mem_cons.mp hp with h1 | h2
      · subst h1
        rcases hsub with h | h | h
        · exact absurd h hcond.2
        · exact Or.inl h
        · exact Or.inr h
      · exact ih w (Or.inr (Or.inr hw)) hrest p h2
    · split at hp
      · exact ih w (Or.inr (Or.inr hw)) hrest p hp
      · rename_i hcond hsubne
        have hfit : ¬ maxSize < sub.length + w.length + 1 := by
          intro hlt
          exact hcond ⟨hlt, hsubne⟩
        have hlen : (sub ++ ' ' :: w).length ≤ maxSize := by
          rw [List.length_append, List.length_cons]
          omega
        exact ih (sub ++ ' ' :: w) (Or.inr (Or.inl hlen)) hrest p hp

/-- The sentence splitter preserves the word sequence: separators are whitespace
runs, so flattening the words of all sentences yields the words of the input. -/
theorem sentSplitAux_words :
    ∀ (l cur : List Char) (pe inSep : Bool),
      (inSep = true → cur = []) →
      ((sentSplitAux l cur pe inSep).map pyWords).flatten =
        pyWords (cur.reverse ++ l) := by
  intro l
  induction l with
  | nil =>
    intro cur pe inSep _
    simp [sentSplitAux, pyWords]
  | cons c rest ih =>
    intro cur pe inSep hinv
    simp only [sentSplitAux]
    split
    · rename_i hsep
      have hcur : cur = [] := hinv hsep
      subst hcur
      split
      · rename_i hc
        rw [ih [] false true (fun _ => rfl)]
        simp [pyWords, wordsAux, hc]
      · rename_i hc
        rw [ih [c] (isSentEnd c) false (by intro h; cases h)]
        simp
    · split
      · rename_i hpe
        have hc : pyIsSpace c = true := (Bool.and_eq_true _ _).mp hpe |>.2
        rw [List.map_cons, List.flatten_cons, ih [] false true (fun _ => rfl)]
        simp only [List.reverse_nil, List.nil_append, pyWords]
        rw [wordsAux_append_space c hc cur.reverse rest []]
      · rw [ih (c :: cur) (isSentEnd c) false (by intro h; cases h)]
        simp [List.append_assoc]

/-- The packing loop preserves the word sequence. -/
theorem packCT_words_concat (maxSize : Nat) :
    ∀ (sl : List (List Char)) (cur : List Char),
      ((packCT maxSize cur sl).map pyWords).flatten =
        pyWords cur ++ (sl.map pyWords).flatten := by
  intro sl
  induction sl with
  | nil =>
    intro cur
    simp only [packCT]
    split
    · rename_i hcur
      subst hcur
      simp [pyWords, wordsAux]
    · simp
  | cons s rest ih =>
    intro cur
    simp only [packCT]
    split
    · simp [ih s, List.append_assoc]
    · split
      · rename_i hcur
        subst hcur
        simp [ih s, pyWords, wordsAux]
      · rw [ih (cur ++ ' ' :: s), pyWords_space_join]
        simp [List.append_assoc]

/-- A non-empty whitespace-free list is its own single word. -/
theorem wordsAux_all_nonspace :
    ∀ (l cur : List Char), (∀ c ∈ l, pyIsSpace c = false) →
      (cur ≠ [] ∨ l ≠ []) → wordsAux l cur = [cur.reverse ++ l] := by
  intro l
  induction l with
  | nil =>
    intro cur _ h
    rcases h with h | h
    · simp [wordsAux, h]
    · exact absurd rfl h
  | cons c rest ih =>
    intro cur hl _
    have hc : pyIsSpace c = false := hl c (List.mem_cons_self c rest)
    simp only [wordsAux, hc, Bool.false_eq_true, if_false]
    rw [ih (c :: cur) (fun x hx => hl x (List.mem_cons_of_mem c hx))
      (Or.inl (List.cons_ne_nil c cur))]
    simp

/-- A list of single words flattens back to itself. -/
theorem flatten_words_of_single :
    ∀ (L : List (List Char)), (∀ w ∈ L, pyWords w = [w]) →
      (L.map pyWords).flatten = L := by
  intro L
  induction L with
  | nil => intro _; simp
  | cons w rest ih =>
    intro h
    rw [List.map_cons, List.flatten_cons, h w (List.mem_cons_self w rest),
      ih (fun x hx => h x (List.mem_cons_of_mem w hx))]
    simp

/-- Each word of the input to the word-packing stage is a single word. -/
theorem pyWords_mem_single (ch w : List Char) (hw : w ∈ pyWords ch) :
    pyWords w = [w] := by
  have hs := wordsAux_mem_sound ch [] w hw (by intro x hx; cases hx)
  have := wordsAux_all_nonspace w [] hs.2 (Or.inr hs.1)
  simpa [pyWords] using this

/-- The second stage of `chunk_text` preserves the word sequence. -/
theorem chunkText_stage2_words (maxSize : Nat) :
    ∀ (chunks : List (List Char)),
      (((chunks.map (fun ch => if ch.length ≤ maxSize then [ch]
          else packCT maxSize [] (pyWords ch))).flatten).map pyWords).flatten =
        (chunks.map pyWords).flatten := by
  intro chunks
  induction chunks with
  | nil => simp
  | cons ch rest ih =>
    rw [List.map_cons, List.flatten_cons, List.map_append, List.flatten_append, ih,
      List.map_cons, List.flatten_cons]
    congr 1
    by_cases hlen : ch.length ≤ maxSize
    · simp [hlen]
    · simp only [hlen, if_false]
      rw [packCT_words_concat maxSize (pyWords ch) []]
      rw [flatten_words_of_single (pyWords ch) (fun w hw => pyWords_mem_single ch w hw)]
      simp [pyWords, wordsAux]

/-- C1 (amended, the `chunk_text` side): every piece produced by `chunk_text` either
fits in `max_chunk_size` or is a single whitespace-free word of the input; and the
word sequence of the pieces is exactly the word sequence of the input, so no word is
ever split mid-word or lost. -/
theorem chunkText_pieces (text : List Char) (maxSize : Nat) :
    (∀ c ∈ chunkText text maxSize,
      c.length ≤ maxSize ∨
      (c ≠ [] ∧ (∀ x ∈ c, pyIsSpace x = false) ∧ c <:+: text)) ∧
    ((chunkText text maxSize).map pyWords).flatten = pyWords text := by
  by_cases hsmall : text.length ≤ maxSize
  · constructor
    · intro c hc
      simp only [chunkText, hsmall, if_true, List.mem_singleton] at hc
      subst hc
      exact Or.inl hsmall
    · simp [chunkText, hsmall]
  · have hsent : ∀ s ∈ sentSplit text, ∀ w ∈ pyWords s, w <:+: text := by
      intro s hs w hw
      have h1 : w <:+: s := by simpa using wordsAux_mem_infix s [] w hw
      have h2 : s <:+: text := by
        simpa using sentSplitAux_mem_infix text [] false false s hs
      exact h1.trans h2
    have hchunks : ∀ ch ∈ packCT maxSize [] (sentSplit text),
        ∀ w ∈ pyWords ch, w <:+: text := by
      refine packCT_words_infix text maxSize (sentSplit text) [] ?_ hsent
      intro w hw
      simp [pyWords, wordsAux] at hw
    constructor
    · intro c hc
      simp only [chunkText, hsmall, if_false] at hc
      rw [List.mem_flatten] at hc
      obtain ⟨bl, hbl, hcbl⟩ := hc
      rw [List.mem_map] at hbl
      obtain ⟨ch, hch, rfl⟩ := hbl
      by_cases hlen : ch.length ≤ maxSize
      · simp only [hlen, if_true, List.mem_singleton] at hcbl
        subst hcbl
        exact Or.inl hlen
      · simp only [hlen, if_false] at hcbl
        refine packCT_mem_bound
          (fun w => w ≠ [] ∧ (∀ x ∈ w, pyIsSpace x = false) ∧ w <:+: text)
          maxSize (pyWords ch) [] (Or.inl rfl) ?_ c hcbl
        intro w hw
        have hs := wordsAux_mem_sound ch [] w hw (by intro x hx; cases hx)
        exact ⟨hs.1, hs.2, hchunks ch hch w hw⟩
    · simp only [chunkText, hsmall, if_false]
      rw [chunkText_stage2_words maxSize (packCT maxSize [] (sentSplit text))]
      rw [packCT_words_concat maxSize (sentSplit text) []]
      have := sentSplitAux_words text [] false false (by intro h; cases h)
      simp only [List.reverse_nil, List.nil_append] at this
      rw [show sentSplit text = sentSplitAux text [] false false from rfl, this]
      simp [pyWords, wordsAux]

/-- Witness for C1: at maximum size 5 the input `"aaa bbb. ccccccc"` produces the
oversized single-word piece `"ccccccc"`, which the theorem certifies. -/
theorem chunkText_pieces_witness :
    "ccccccc".data ∈ chunkText c1wtxt 5 ∧
    ("ccccccc".data.length ≤ 5 ∨
      ("ccccccc".data ≠ [] ∧ (∀ x ∈ "ccccccc".data, pyIsSpace x = false) ∧
        "ccccccc".data <:+: c1wtxt)) :=
  ⟨by decide, (chunkText_pieces c1wtxt 5).1 ("ccccccc".data) (by decide)⟩

/-- C1 counterexample against `_split_text_into_chunks` (summarizer.py): at
`chunk_size = 5` the input `"ab. cd"` comes back as the single 6-character piece
`"ab. cd"`, which exceeds the bound yet is not a single word (it contains a space);
and at `chunk_size = 3` the single word `"abcdefgh"` is split mid-word into
`["abc", "def", "gh"]`. -/
theorem chunker_oversize_counterexample :
    splitTextIntoChunks c1txt 5 = [c1txt] ∧ 5 < c1txt.length ∧ ' ' ∈ c1txt ∧
    splitTextIntoChunks ("abcdefgh".data) 3 =
      ["abc".data, "def".data, "gh".data] := by decide

/-! ## Claims C3 and C8: the fetch cascade and process_video -/

/-- C3: evaluation of `get_subtitles` at the failing environment.  A preferred-language
track is listed but its caption data fails validation and cannot be translated; the
stale `transcript` variable is then truthy, the guards on lines 230 and 255 skip the
generated, any-available and yt-dlp strategies, and the function falls off the end of
its `try` suite returning `None` — neither a validated transcript nor a raised
no-captions failure — even though the never-attempted yt-dlp fallback held a good
transcript. -/
theorem cascade_falls_off_silently :
    getSubtitles cexEnv3 defaultLangs = .ok none ∧
    cexEnv3.ytdlpRes = .ok (some ("valid subtitles text".data)) ∧
    ("valid subtitles text".data : List Char) ≠ [] := by
  refine ⟨by decide, rfl, by decide⟩

/-- C8 (amended): `process_video` never lets any failure propagate: for every
environment, URL and language list it returns either the sentinel `(None, None)` or
a title together with a non-empty transcript. -/
theorem process_video_absorbs (env : Env) (url : List Char)
    (langs : List (List Char)) :
    processVideo env url langs = (none, none) ∨
    ∃ ti tr, processVideo env url langs = (some ti, some tr) ∧ tr ≠ [] := by
  cases hE : extractVideoId url with
  | error e => exact Or.inl (by simp [processVideo, hE])
  | ok v =>
    cases hS : getSubtitles env langs with
    | error e => exact Or.inl (by simp [processVideo, hE, hS])
    | ok r =>
      cases r with
      | none => exact Or.inl (by simp [processVideo, hE, hS])
      | some t =>
        by_cases ht : t = []
        · exact Or.inl (by simp [processVideo, hE, hS, ht])
        · exact Or.inr ⟨env.videoTitle, t, by simp [processVideo, hE, hS, ht], ht⟩

/-- C8 counterexample: an invalid URL does not propagate any error to the caller —
`extract_video_id` raises `ValueError`, but `process_video` absorbs it and returns
`(None, None)`, contradicting the claim that `InvalidUrl` propagates out of the
core. -/
theorem invalid_url_not_raised_counterexample :
    extractVideoId ("not a url".data) = .error () ∧
    processVideo cexEnv3 ("not a url".data) defaultLangs = (none, none) := by decide

/-! ## Claim C9: candidate validation -/

/-- If `extractPairs` succeeds, every item is a dict carrying both `text` and
`start`. -/
theorem extractPairs_sound :
    ∀ (items : List (Option RawFrag)) (ps : List (Int × List Char)),
      extractPairs items = some ps →
      ∀ it ∈ items, ∃ fr, it = some fr ∧ fr.text.isSome ∧ fr.start.isSome := by
  intro items
  induction items with
  | nil => intro ps _ it hit; cases hit
  | cons a rest ih =>
    intro ps hps it hit
    cases a with
    | none => simp [extractPairs] at hps
    | some fr =>
      cases hst : fr.start with
      | none => simp [extractPairs, hst] at hps
      | some st =>
        cases htx : fr.text with
        | none => simp [extractPairs, hst, htx] at hps
        | some tx =>
          simp only [extractPairs, hst, htx] at hps
          rcases List.mem_cons.mp hit with h1 | h2
          · subst h1
            exact ⟨fr, rfl, by simp [htx], by simp [hst]⟩
          · cases hrest : extractPairs rest with
            | none => rw [hrest] at hps; simp at hps
            | some qs => exact ih qs hrest it h2

/-- C9 (amended): a candidate caption result is accepted only if its item list is
non-empty, every item is a record carrying `text` and `start` (a missing field makes
construction raise, rejecting the candidate), and the assembled text is truthy with
stripped length at least 10; XML-string candidates are never accepted (construction
raises on them).  The `duration` field is not part of any check. -/
theorem candidate_acceptance (items : List (Option RawFrag)) (t : List Char)
    (h : tryAccept (SubData.listData items) = some t) :
    items ≠ [] ∧
    (∀ it ∈ items, ∃ fr, it = some fr ∧ fr.text.isSome ∧ fr.start.isSome) ∧
    10 ≤ (pyStrip t).length ∧ t ≠ [] ∧
    (∀ (xmlOk : Bool) (s : List Char), tryAccept (SubData.strData xmlOk s) = none) := by
  have hi : items ≠ [] := by
    intro hnil
    subst hnil
    simp [tryAccept, validateSubtitleData] at h
  by_cases hv : validateSubtitleData (SubData.listData items) = true
  case neg => simp [tryAccept, hv] at h
  cases hct : constructTT (SubData.listData items) with
  | error e => simp [tryAccept, hv, hct] at h
  | ok tt =>
    simp only [tryAccept, hv, if_true, hct] at h
    split at h
    · rename_i hcond
      have htt : tt = t := by injection h
      subst htt
      refine ⟨hi, ?_, hcond.2, hcond.1, ?_⟩
      · simp only [constructTT, hi, if_false] at hct
        cases hep : extractPairs items with
        | none => rw [hep] at hct; cases hct
        | some keyed => exact extractPairs_sound items keyed hep
      · intro xmlOk s
        by_cases hs : s = []
        · simp [tryAccept, validateSubtitleData, hs]
        · by_cases hv2 : validateSubtitleData (SubData.strData xmlOk s) = true
          · simp [tryAccept, hv2, constructTT, hs]
          · simp [tryAccept, hv2]
    · exact absurd h (by simp)

/-- C9 counterexample: a single-fragment candidate whose item carries `text` and
`start` but no `duration` is accepted, contradicting the claim that acceptance
requires each fragment to be a well-formed record with a `duration` field. -/
theorem duration_unchecked_counterexample :
    noDurItem.isSome = true ∧
    Option.bind noDurItem (fun fr => fr.duration) = none ∧
    tryAccept (SubData.listData [noDurItem]) = some ("subtitlestexthere".data) := by
  decide

/-- Witness for C9 at the duration-free accepted candidate. -/
theorem candidate_acceptance_witness :
    (∀ it ∈ [noDurItem], ∃ fr, it = some fr ∧ fr.text.isSome ∧ fr.start.isSome) ∧
    10 ≤ (pyStrip ("subtitlestexthere".data)).length :=
  have h := candidate_acceptance [noDurItem] ("subtitlestexthere".data) (by decide)
  ⟨h.2.1, h.2.2.1⟩

/-! ## Claim C6: the transcript assembler -/

/-- Inserting into a list is a permutation of consing. -/
theorem insertByKey_perm {α : Type} (x : Int × α) :
    ∀ l : List (Int × α), (insertByKey x l).Perm (x :: l) := by
  intro l
  induction l with
  | nil => simp [insertByKey]
  | cons y ys ih =>
    simp only [insertByKey]
    split
    · exact List.Perm.refl _
    · exact (List.Perm.cons y ih).trans (List.Perm.swap x y ys)

/-- The sort is a permutation of its input. -/
theorem sortByKey_perm {α : Type} : ∀ l : List (Int × α), (sortByKey l).Perm l := by
  intro l
  induction l with
  | nil => simp [sortByKey]
  | cons x xs ih =>
    exact (insertByKey_perm x (sortByKey xs)).trans (List.Perm.cons x ih)

/-- Insertion preserves sortedness by key. -/
theorem insertByKey_pairwise {α : Type} (x : Int × α) :
    ∀ l : List (Int × α), l.Pairwise (fun a b => a.1 ≤ b.1) →
      (insertByKey x l).Pairwise (fun a b => a.1 ≤ b.1) := by
  intro l
  induction l with
  | nil => intro _; simp [insertByKey]
  | cons y ys ih =>
    intro hp
    rw [List.pairwise_cons] at hp
    simp only [insertByKey]
    split
    · rename_i hxy
      refine List.Pairwise.cons ?_ (List.pairwise_cons.mpr hp)
      intro z hz
      rcases List.mem_cons.mp hz with h1 | h2
      · subst h1; exact hxy
      · exact le_trans hxy (hp.1 z h2)
    · rename_i hxy
      have hyx : y.1 ≤ x.1 := le_of_not_le hxy
      refine List.Pairwise.cons ?_ (ih hp.2)
      intro z hz
      have hz' : z ∈ x :: ys := (insertByKey_perm x ys).mem_iff.mp hz
      rcases List.mem_cons.mp hz' with h1 | h2
      · subst h1; exact hyx
      · exact hp.1 z h2

/-- The sort output is sorted by key. -/
theorem sortByKey_pairwise {α : Type} : ∀ l : List (Int × α),
    (sortByKey l).Pairwise (fun a b => a.1 ≤ b.1) := by
  intro l
  induction l with
  | nil => simp [sortByKey]
  | cons x xs ih => exact insertByKey_pairwise x (sortByKey xs) ih

/-- Stability seen through filtering on one key: insertion behaves like consing. -/
theorem insertByKey_filter {α : Type} (k : Int) (x : Int × α) :
    ∀ l : List (Int × α),
      (insertByKey x l).filter (fun p => p.1 == k) =
        ((x :: l).filter (fun p => p.1 == k)) := by
  intro l
  induction l with
  | nil => simp [insertByKey]
  | cons y ys ih =>
    simp only [insertByKey]
    split
    · rfl
    · rename_i hxy
      have hyx : y.1 < x.1 := lt_of_not_le hxy
      by_cases hx : x.1 = k
      · have hy : ¬ y.1 = k := by omega
        simp [List.filter_cons, ih, hx, hy]
      · simp only [List.filter_cons, ih]
        by_cases hyk : y.1 = k
        · simp [hx, hyk]
        · simp [hx, hyk]

/-- Stability of the sort: elements with any fixed key keep their relative order. -/
theorem sortByKey_filter {α : Type} (k : Int) :
    ∀ l : List (Int × α),
      (sortByKey l).filter (fun p => p.1 == k) = l.filter (fun p => p.1 == k) := by
  intro l
  induction l with
  | nil => rfl
  | cons x xs ih =>
    rw [sortByKey, insertByKey_filter k x (sortByKey xs), List.filter_cons,
      List.filter_cons, ih]

/-- The source-shaped indexed lookahead loop equals the spec-shaped pairwise rule. -/
theorem assembleParts_eq_spec : ∀ texts : List (List Char),
    assembleParts texts = specPieces texts := by
  intro texts
  induction texts with
  | nil => rfl
  | cons t rest ih =>
    cases rest with
    | nil => simp [assembleParts, specPieces, nextRaw, spacedPiece]
    | cons t' r =>
      have hz : specPieces (t :: t' :: r) =
          spacedPiece t (some t') ++ specPieces (t' :: r) := by
        simp [specPieces, nextRaw]
      rw [hz, ← ih]
      simp only [assembleParts, spacedPiece]
      split
      · simp
      · split
        · simp
        · simp

/-- Fully-populated dicts extract to their own pair list. -/
theorem extractPairs_full :
    ∀ items : List (Int × List Char),
      extractPairs (items.map mkFullItem) = some items := by
  intro items
  induction items with
  | nil => rfl
  | cons p ps ih => simp [extractPairs, mkFullItem, ih]

/-- C6 (amended): on well-formed fragments `_construct_transcript_text` stably sorts
by `start` ascending (the output is a sorted permutation of the input in which
equal-start fragments keep their order) and produces exactly the pairwise rule of
`specPieces`: each fragment's text stripped, dropped when blank after stripping, and
given one trailing space exactly when the stripped text does not end in one of
`.!?…,:;`, the fragment is not the last, and the raw text of the next fragment in
sorted order is non-empty and does not begin with one of them. -/
theorem assemble_sorted_characterization (items : List (Int × List Char)) :
    constructTT (SubData.listData (items.map mkFullItem)) =
      .ok ((specPieces ((sortByKey items).map (fun p => p.2))).flatten) ∧
    (sortByKey items).Perm items ∧
    ((sortByKey items).map (fun p => p.1)).Sorted (· ≤ ·) ∧
    (∀ k : Int, (sortByKey items).filter (fun p => p.1 == k) =
      items.filter (fun p => p.1 == k)) := by
  refine ⟨?_, sortByKey_perm items, ?_, fun k => sortByKey_filter k items⟩
  · by_cases hi : items = []
    · subst hi; rfl
    · have hmap : items.map mkFullItem ≠ [] := by simp [hi]
      simp only [constructTT, hmap, if_false]
      rw [extractPairs_full items]
      simp only [assembleParts_eq_spec]
  · exact List.pairwise_map.mpr (sortByKey_pairwise items)

/-- C6 counterexample: a single fragment with text `" ab "` assembles to `"ab"` —
each fragment's text is stripped, contradicting "performs no other normalization of
the fragment texts". -/
theorem assembler_strips_counterexample :
    constructTT (SubData.listData [padItem]) = .ok ("ab".data) ∧
    ("ab".data : List Char) ≠ " ab ".data := by decide

/-! ## Claim C7: URL shape matching -/

/-- `leadsWith` decides list-prefix decomposition. -/
theorem leadsWith_iff :
    ∀ (p l : List Char), leadsWith p l = true ↔ ∃ t, p ++ t = l := by
  intro p
  induction p with
  | nil => intro l; simp [leadsWith]
  | cons a ps ih =>
    intro l
    cases l with
    | nil => simp [leadsWith]
    | cons c rest =>
      simp only [leadsWith, Bool.and_eq_true, beq_iff_eq]
      constructor
      · rintro ⟨rfl, h2⟩
        obtain ⟨t, ht⟩ := (ih rest).mp h2
        exact ⟨t, by rw [List.cons_append, ht]⟩
      · rintro ⟨t, ht⟩
        rw [List.cons_append] at ht
        injection ht with h1 h2
        exact ⟨h1, (ih rest).mpr ⟨t, h2⟩⟩

/-- `findCore` fails exactly when no occurrence of the core is followed by an
admissible character. -/
theorem findCore_none_iff (core : List Char) (bad : Char → Bool) :
    ∀ url : List Char, findCore core bad url = none ↔ noShape core bad url := by
  intro url
  induction url with
  | nil =>
    simp only [findCore, noShape]
    constructor
    · intro _ pre suf h
      have h1 : pre = [] ∧ core ++ suf = [] := by
        rw [List.append_assoc] at h
        exact List.append_eq_nil.mp h.symm
      have h2 : suf = [] := (List.append_eq_nil.mp h1.2).2
      subst h2
      simp [grab]
    · intro _; trivial
  | cons c rest ih =>
    simp only [findCore]
    split
    · rename_i hcond
      constructor
      · intro h; cases h
      · intro hN
        exfalso
        obtain ⟨t, ht⟩ := (leadsWith_iff core (c :: rest)).mp hcond.1
        have hdrop : (c :: rest).drop core.length = t := by
          rw [← ht, List.drop_left]
        have hg := hN [] t (by rw [List.nil_append, ht])
        rw [hdrop] at hcond
        exact hcond.2 hg
    · rename_i hcond
      rw [ih]
      constructor
      · intro hN pre suf h
        cases pre with
        | nil =>
          rw [List.nil_append] at h
          have hlw : leadsWith core (c :: rest) = true :=
            (leadsWith_iff core (c :: rest)).mpr ⟨suf, h.symm⟩
          by_contra hg
          have hdrop : (c :: rest).drop core.length = suf := by
            rw [h, List.drop_left]
          exact hcond ⟨hlw, by rw [hdrop]; exact hg⟩
        | cons d pre' =>
          have h' : c :: rest = d :: (pre' ++ core ++ suf) := by
            rw [h]; rfl
          injection h' with h1 h2
          exact hN pre' suf h2
      · intro hN pre suf h
        refine hN (c :: pre) suf ?_
        rw [h]
        rfl

/-- C7: `extract_video_id` tries the four URL shapes in their fixed order and returns
the capture of the first matching one; it fails with `ValueError` exactly when none
of the four shapes occurs followed by an admissible id character. -/
theorem extract_first_shape (url : List Char) :
    (extractVideoId url = .error () ↔
      (noShape watchCore watchBad url ∧ noShape embedCore pathBad url ∧
       noShape beCore pathBad url ∧ noShape shortsCore pathBad url)) ∧
    (∀ v, extractVideoId url = .ok v ↔
      (findCore watchCore watchBad url = some v ∨
       (findCore watchCore watchBad url = none ∧
        findCore embedCore pathBad url = some v) ∨
       (findCore watchCore watchBad url = none ∧
        findCore embedCore pathBad url = none ∧
        findCore beCore pathBad url = some v) ∨
       (findCore watchCore watchBad url = none ∧
        findCore embedCore pathBad url = none ∧
        findCore beCore pathBad url = none ∧
        findCore shortsCore pathBad url = some v))) := by
  cases h1 : findCore watchCore watchBad url with
  | some v1 =>
    refine ⟨?_, ?_⟩
    · simp [extractVideoId, h1, ← findCore_none_iff]
    · intro v
      simp [extractVideoId, h1]
  | none =>
    cases h2 : findCore embedCore pathBad url with
    | some v2 =>
      refine ⟨?_, ?_⟩
      · simp [extractVideoId, h1, h2, ← findCore_none_iff]
      · intro v
        simp [extractVideoId, h1, h2]
    | none =>
      cases h3 : findCore beCore pathBad url with
      | some v3 =>
        refine ⟨?_, ?_⟩
        · simp [extractVideoId, h1, h2, h3, ← findCore_none_iff]
        · intro v
          simp [extractVideoId, h1, h2, h3]
      | none =>
        cases h4 : findCore shortsCore pathBad url with
        | some v4 =>
          refine ⟨?_, ?_⟩
          · simp [extractVideoId, h1, h2, h3, h4, ← findCore_none_iff]
          · intro v
            simp [extractVideoId, h1, h2, h3, h4]
        | none =>
          refine ⟨?_, ?_⟩
          · simp only [extractVideoId, h1, h2, h3, h4]
            simp [← findCore_none_iff, h1, h2, h3, h4]
          · intro v
            simp [extractVideoId, h1, h2, h3, h4]
